import Mathlib

/-!
Verification development for the 2048 player agent (`PlayerAI_3.py`).

The agent performs depth-bounded minimax search with alpha-beta pruning over
board states of a sliding-tile merging puzzle, evaluating leaves with a
weighted heuristic (smoothness, monotonicity, empty-cell count, max tile).

The board/grid collaborator (`Grid_3`) is external to the core source; its
operations are modelled from the specification's interface contracts (§6):
cloning, shifting/merging, cell insertion, and the query primitives.
Machine integers are modelled as unbounded `Int`/`Nat` (Python semantics);
`sys.maxsize` is the 64-bit value `2^63 - 1`.
-/

namespace Player2048

/-- A board position `(row, column)`. -/
abbrev Pos := Nat × Nat

/-- Modelled from the spec: `Direction` is one of up, down, left, right
(`Grid_3`'s `UP, DOWN, LEFT, RIGHT`). -/
inductive Move where
  | up | down | left | right
deriving DecidableEq, Repr

/-- Modelled from the spec: the order in which `getAvailableMoves` tries the
four directions (`vecIndex = [UP, DOWN, LEFT, RIGHT]`). -/
def allMoves : List Move := [.up, .down, .left, .right]

/-- Modelled from the spec: a board is a square matrix of non-negative integer
tile values (0 = empty), with a fixed queryable size. -/
structure Grid where
  size : Nat
  map : List (List Nat)
deriving DecidableEq, Repr

/-- Raw in-bounds cell read, `grid.map[i][j]` (0 when out of range). -/
def Grid.cell (g : Grid) (i j : Nat) : Nat :=
  (g.map.getD i []).getD j 0

/-- Modelled from the spec: `crossBound(pos)` is true iff the position is
outside the grid.  (The agent only ever scans downward and rightward, so
positions never go negative and `Nat` coordinates suffice.) -/
def Grid.crossBound (g : Grid) (p : Pos) : Bool :=
  g.size ≤ p.1 || g.size ≤ p.2

/-- Modelled from the spec: `canInsert(pos)` is true iff the cell is in bounds
and empty. -/
def Grid.canInsert (g : Grid) (p : Pos) : Bool :=
  !g.crossBound p && g.cell p.1 p.2 == 0

/-- Modelled from the spec: `getCellValue(pos)` returns the tile value, or
`none` to signal out-of-bounds. -/
def Grid.getCellValue (g : Grid) (p : Pos) : Option Nat :=
  if g.crossBound p then none else some (g.cell p.1 p.2)

/-- Modelled from the spec: `getMaxTile()` is the maximum tile value on the
board. -/
def Grid.getMaxTile (g : Grid) : Nat :=
  (g.map.map (fun row => row.foldr max 0)).foldr max 0

/-- Modelled from the spec: `getAvailableCells()` lists the currently empty
cells, scanning rows then columns. -/
def Grid.getAvailableCells (g : Grid) : List Pos :=
  ((List.range g.size).map (fun i =>
    ((List.range g.size).filter (fun j => g.cell i j == 0)).map (fun j => (i, j)))).flatten

/-- Modelled from the spec: `setCellValue(pos, value)` writes a tile value at a
position of a (cloned) board. -/
def Grid.setCellValue (g : Grid) (p : Pos) (v : Nat) : Grid :=
  { g with map := g.map.set p.1 ((g.map.getD p.1 []).set p.2 v) }

/-- Modelled from the spec: merging pass of a shift — adjacent equal values
combine, leftmost pair first, each merged tile merging only once per shift. -/
def mergeRun : List Nat → List Nat
  | [] => []
  | [a] => [a]
  | a :: b :: rest =>
    if a = b then (a + b) :: mergeRun rest else a :: mergeRun (b :: rest)

/-- Modelled from the spec: sliding one line of tiles toward its head —
occupied cells keep their order, merge, and the line is refilled with zeros. -/
def slideLine (n : Nat) (line : List Nat) : List Nat :=
  let merged := mergeRun (line.filter (fun v => v ≠ 0))
  merged ++ List.replicate (n - merged.length) 0

/-- Column `j` of the grid, top to bottom. -/
def Grid.column (g : Grid) (j : Nat) : List Nat :=
  (List.range g.size).map (fun i => g.cell i j)

/-- Rebuild a grid of size `n` from a list of columns. -/
def ofColumns (n : Nat) (cols : List (List Nat)) : List (List Nat) :=
  (List.range n).map (fun i => cols.map (fun c => c.getD i 0))

/-- Modelled from the spec: `move(direction)` shifts/merges the whole board in
that direction (`moveLR` / `moveUD` of the grid collaborator). -/
def Grid.move (g : Grid) (m : Move) : Grid :=
  match m with
  | .left => { g with map := g.map.map (fun row => slideLine g.size row) }
  | .right => { g with map := g.map.map (fun row => (slideLine g.size row.reverse).reverse) }
  | .up =>
    let cols := (List.range g.size).map (fun j => slideLine g.size (g.column j))
    { g with map := ofColumns g.size cols }
  | .down =>
    let cols := (List.range g.size).map (fun j => (slideLine g.size (g.column j).reverse).reverse)
    { g with map := ofColumns g.size cols }

/-- Modelled from the spec: `getAvailableMoves()` lists the legal shifts — the
directions whose shift changes the board (tried in `vecIndex` order). -/
def Grid.getAvailableMoves (g : Grid) : List Move :=
  allMoves.filter (fun m => g.move m ≠ g)

/-! ## The player agent's constants (`PlayerAI.__init__`) -/

/-- `TARGET_TILE_VALUE = 2048`. -/
def TARGET_TILE_VALUE : Nat := 2048

/-- `TILE_VALUE_PROBA = {2: 9}` (the rare insertion of 4 is omitted in the
source for speedup). -/
def TILE_VALUE_PROBA : List (Nat × Int) := [(2, 9)]

/-- `MAX_DEPTH = 4`. -/
def MAX_DEPTH : Nat := 4

/-- `MAX_UTILITY = sys.maxsize` (64-bit platform). -/
def MAX_UTILITY : Int := 2 ^ 63 - 1

/-- `PlayerAI.__is_terminal_state`: the maximum tile equals the target value. -/
def is_terminal_state (g : Grid) : Bool :=
  g.getMaxTile == TARGET_TILE_VALUE

/-! ## The heuristic evaluator (`PlayerAI.__eval` and helpers) -/

/-- Binary-digit recursion for `popcount`, fueled so that it reduces in the
kernel; `n / 2 < n` for `n ≠ 0`, so fuel `n` always suffices. -/
def popcountFuel : Nat → Nat → Nat
  | 0, _ => 0
  | f + 1, n => if n = 0 then 0 else n % 2 + popcountFuel f (n / 2)

/-- Number of 1 bits in the binary representation (`bin(x).count("1")`). -/
def popcount (n : Nat) : Nat := popcountFuel n n

/-- `PlayerAI.__log2`: `bin(value ^ (value - 1)).count("1")` for nonzero
values, else 0. -/
def log2 (value : Nat) : Nat :=
  if value ≠ 0 then popcount (value ^^^ (value - 1)) else 0

/-- The two scan directions used by the heuristics (`DOWN_VEC`, `RIGHT_VEC`). -/
inductive ScanDir where
  | down | right
deriving DecidableEq, Repr

/-- One step of a scan: add the direction vector to a position. -/
def stepPos : ScanDir → Pos → Pos
  | .down, p => (p.1 + 1, p.2)
  | .right, p => (p.1, p.2 + 1)

/-- The scan loop of `PlayerAI.__find_farthest_pos`: advance while the next
position is in bounds and empty.  Fueled for kernel reduction: each step
increases the coordinate sum and the in-bounds guard caps that sum below
`2 * size`, so any fuel of at least `2 * size` makes the loop exact. -/
def farthestAux (g : Grid) (v : ScanDir) : Nat → Pos → Pos
  | 0, next => next
  | fuel + 1, next =>
    if !g.crossBound next && g.canInsert next then farthestAux g v fuel (stepPos v next)
    else next

/-- `PlayerAI.__find_farthest_pos`: from a start cell, step repeatedly in a
fixed direction while the next position is in bounds and insertable. -/
def find_farthest_pos (g : Grid) (start : Pos) (v : ScanDir) : Pos :=
  farthestAux g v (2 * g.size + 2) (stepPos v start)

/-- `PlayerAI.__smoothness`: for every occupied cell, subtract the absolute
exponent difference against the nearest occupied tile found scanning downward
and rightward. -/
def smoothness (g : Grid) : Int :=
  ((List.range g.size).map (fun i =>
    ((List.range g.size).map (fun j =>
      if !g.canInsert (i, j) then
        let start_value : Int := log2 (g.cell i j)
        ([ScanDir.down, ScanDir.right].map (fun v =>
          let terminal_pos := find_farthest_pos g (i, j) v
          match g.getCellValue terminal_pos with
          | some tv => -(start_value - (log2 tv : Int)).natAbs
          | none => 0)).sum
      else 0)).sum)).sum

/-- The column scan of `PlayerAI.__monotonicity`: walk a column by farthest
occupied positions, accumulating signed exponent differences into the
`DOWN`/`UP` accumulators.  Fueled for kernel reduction: `current_row` strictly
increases every iteration and the loop runs only while `next_row < size`, so
fuel `size + 1` makes the loop exact. -/
def monoColAux (g : Grid) (col : Nat) : Nat → Nat → Nat → Int → Int → Int × Int
  | 0, _, _, down, up => (down, up)
  | fuel + 1, current_row, next_row, down, up =>
    if next_row < g.size then
      let nr := (find_farthest_pos g (current_row, col) .down).1
      let current_value : Int := log2 (g.cell current_row col)
      let next_value : Int := log2 (g.cell (if nr = g.size then g.size - 1 else nr) col)
      if current_value < next_value then
        monoColAux g col fuel nr nr (down + (current_value - next_value)) up
      else
        monoColAux g col fuel nr nr down (up + (next_value - current_value))
    else (down, up)

/-- The row scan of `PlayerAI.__monotonicity`: walk a row by farthest occupied
positions, accumulating signed exponent differences into the `RIGHT`/`LEFT`
accumulators (fueled like `monoColAux`). -/
def monoRowAux (g : Grid) (row : Nat) : Nat → Nat → Nat → Int → Int → Int × Int
  | 0, _, _, right, left => (right, left)
  | fuel + 1, current_col, next_col, right, left =>
    if next_col < g.size then
      let nc := (find_farthest_pos g (row, current_col) .right).2
      let current_value : Int := log2 (g.cell row current_col)
      let next_value : Int := log2 (g.cell row (if nc = g.size then g.size - 1 else nc))
      if current_value < next_value then
        monoRowAux g row fuel nc nc (right + (current_value - next_value)) left
      else
        monoRowAux g row fuel nc nc right (left + (next_value - current_value))
    else (right, left)

/-- `PlayerAI.__monotonicity`: per-direction accumulators over all columns
(`UP`/`DOWN`) and all rows (`LEFT`/`RIGHT`), combined as
`max(up, down) + max(left, right)`. -/
def monotonicity (g : Grid) : Int :=
  let du := (List.range g.size).foldl
    (fun (acc : Int × Int) col => monoColAux g col (g.size + 1) 0 0 acc.1 acc.2) (0, 0)
  let rl := (List.range g.size).foldl
    (fun (acc : Int × Int) row => monoRowAux g row (g.size + 1) 0 0 acc.1 acc.2) (0, 0)
  max du.2 du.1 + max rl.2 rl.1

/-- The single statistics pass of `PlayerAI.__eval`: running maximum tile and
empty-cell count over all positions. -/
def evalStats (g : Grid) : Nat × Nat :=
  ((List.range g.size).map (fun i => (List.range g.size).map (fun j => (i, j)))).flatten.foldl
    (fun (acc : Nat × Nat) p =>
      let tile_value := g.cell p.1 p.2
      let mx := if acc.1 < tile_value then tile_value else acc.1
      let ec := if tile_value = 0 then acc.2 + 1 else acc.2
      (mx, ec)) (0, 0)

/-- `PlayerAI.__eval`: weighted sum of smoothness, monotonicity, empty-cell
count and maximum tile value. -/
def eval (g : Grid) : Int :=
  let SMOOTH_WEIGHT : Int := 10
  let MONO_WEIGHT : Int := 20
  let EMPTY_WEIGHT : Int := 80
  let MAX_WEIGHT : Int := 10
  let stats := evalStats g
  SMOOTH_WEIGHT * smoothness g + MONO_WEIGHT * monotonicity g +
    EMPTY_WEIGHT * (stats.2 : Int) + MAX_WEIGHT * (stats.1 : Int)

/-! ## The search engine (`PlayerAI.__maximize` / `PlayerAI.__minimize`)

The two procedures are mutually recursive in the source, each recursive call
passing `depth + 1` and cutting off at `depth = MAX_DEPTH`.  They are embedded
by simultaneous structural recursion on a fuel of remaining plies
(`MAX_DEPTH - depth`); with that fuel the out-of-fuel fallback coincides with
the source's depth cutoff whenever `depth ≤ MAX_DEPTH`. -/

/-- The move loop of `__maximize`: running best `(max_move, max_utility)` and
running `alpha`, recursing into the given minimizing ply on a moved copy,
breaking on `utility ≥ beta`. -/
def maxLoop (minimizeF : Grid → Nat → Int → Int → Option Pos × Int)
    (g : Grid) (depth : Nat) (beta : Int) :
    List Move → Option Move → Int → Int → Option Move × Int
  | [], max_move, max_utility, _ => (max_move, max_utility)
  | move :: rest, max_move, max_utility, alpha =>
    let grid_copy := g.move move
    let utility := (minimizeF grid_copy (depth + 1) alpha beta).2
    let best := if utility > max_utility then (some move, utility)
                else (max_move, max_utility)
    if utility ≥ beta then best
    else maxLoop minimizeF g depth beta rest best.1 best.2
      (if utility > alpha then utility else alpha)

/-- The inner expectation loop of `__minimize` over `TILE_VALUE_PROBA`:
accumulate `proba * cond_utility` and the total weight, threading the one
reused clone `grid_copy`. -/
def probaLoop (maximizeF : Grid → Nat → Int → Int → Option Move × Int)
    (cellPos : Pos) (depth : Nat) (alpha beta : Int) :
    List (Nat × Int) → Int → Int → Grid → Int × Int
  | [], utility, freq, _ => (utility, freq)
  | (value, proba) :: rest, utility, freq, grid_copy =>
    let grid_copy := grid_copy.setCellValue cellPos value
    let cond_utility := (maximizeF grid_copy (depth + 1) alpha beta).2
    probaLoop maximizeF cellPos depth alpha beta rest
      (utility + proba * cond_utility) (freq + proba) grid_copy

/-- The cell loop of `__minimize`: running best `(min_move, min_utility)` and
running `beta`; the expected utility of a cell is the weighted sum from
`probaLoop` floor-divided (Python `//=`) by the total weight; breaks on
`utility ≤ alpha`. -/
def minLoop (maximizeF : Grid → Nat → Int → Int → Option Move × Int)
    (g : Grid) (depth : Nat) (alpha : Int) :
    List Pos → Option Pos → Int → Int → Option Pos × Int
  | [], min_move, min_utility, _ => (min_move, min_utility)
  | cellPos :: rest, min_move, min_utility, beta =>
    let grid_copy := g
    let acc := probaLoop maximizeF cellPos depth alpha beta TILE_VALUE_PROBA 0 0 grid_copy
    let utility := Int.fdiv acc.1 acc.2
    let best := if utility < min_utility then (some cellPos, utility)
                else (min_move, min_utility)
    if utility ≤ alpha then best
    else minLoop maximizeF g depth alpha rest best.1 best.2
      (if utility < beta then utility else beta)

/-- Simultaneous fueled recursion for the two mutually recursive plies: the
first component is `__maximize`, the second `__minimize`.  Out of fuel, both
return the static evaluation, which is exactly the source's `depth` cutoff when
the fuel is `MAX_DEPTH - depth`. -/
def searchFns : Nat →
    (Grid → Nat → Int → Int → Option Move × Int) × (Grid → Nat → Int → Int → Option Pos × Int)
  | 0 => (fun g _ _ _ => (none, eval g), fun g _ _ _ => (none, eval g))
  | fuel + 1 =>
    let prev := searchFns fuel
    (fun g depth alpha beta =>
      if depth = MAX_DEPTH || is_terminal_state g then (none, eval g)
      else maxLoop prev.2 g depth beta g.getAvailableMoves none (-MAX_UTILITY) alpha,
     fun g depth alpha beta =>
      if depth = MAX_DEPTH || is_terminal_state g then (none, eval g)
      else minLoop prev.1 g depth alpha g.getAvailableCells none MAX_UTILITY beta)

/-- `PlayerAI.__maximize` (fueled embedding; instantiate the fuel with
`MAX_DEPTH - depth`). -/
def maximize (fuel : Nat) (g : Grid) (depth : Nat) (alpha beta : Int) :
    Option Move × Int :=
  (searchFns fuel).1 g depth alpha beta

/-- `PlayerAI.__minimize` (fueled embedding; instantiate the fuel with
`MAX_DEPTH - depth`). -/
def minimize (fuel : Nat) (g : Grid) (depth : Nat) (alpha beta : Int) :
    Option Pos × Int :=
  (searchFns fuel).2 g depth alpha beta

/-- `PlayerAI.getMove`: search from the root with full bounds; if no move came
back, fall back to a random legal move.  `randint(0, len(moves) - 1)` is
modelled by an arbitrary sample `r` taken modulo the number of legal moves
(every legal index is reachable, uniformly when `r` is uniform); on an empty
move list Python's `randint(0, -1)` raises `ValueError`, modelled as
`Except.error ()`. -/
def getMove (g : Grid) (r : Nat) : Except Unit Move :=
  let first := (maximize MAX_DEPTH g 0 (-MAX_UTILITY) MAX_UTILITY).1
  match first with
  | some m => .ok m
  | none =>
    let moves := g.getAvailableMoves
    if h : moves.length = 0 then .error ()
    else .ok (moves.get ⟨r % moves.length, Nat.mod_lt _ (Nat.pos_of_ne_zero h)⟩)

/-! ## Unpruned minimax (the refinement baseline of spec §8) -/

mutual

/-- Modelled from the spec: unpruned depth-bounded minimax, maximizing ply —
the same cutoff condition, expectation model and leaf evaluator as
`__maximize`, but no alpha-beta bounds (a node takes the plain maximum over
its children, with the search's dead-end value `-MAX_UTILITY` when there are
no legal moves). -/
def minimaxMax : Nat → Grid → Nat → Int
  | 0, g, _ => eval g
  | fuel + 1, g, depth =>
    if depth = MAX_DEPTH || is_terminal_state g then eval g
    else (g.getAvailableMoves.map
      (fun m => minimaxMin fuel (g.move m) (depth + 1))).foldl max (-MAX_UTILITY)

/-- Modelled from the spec: unpruned depth-bounded minimax, minimizing ply —
per empty cell, the expected utility over `TILE_VALUE_PROBA` (weighted sum,
floor-divided by the total weight), minimized over cells, with the search's
dead-end value `MAX_UTILITY` when there are no empty cells. -/
def minimaxMin : Nat → Grid → Nat → Int
  | 0, g, _ => eval g
  | fuel + 1, g, depth =>
    if depth = MAX_DEPTH || is_terminal_state g then eval g
    else (g.getAvailableCells.map (fun c =>
      let acc := TILE_VALUE_PROBA.foldl
        (fun (acc : Int × Int) vp =>
          (acc.1 + vp.2 * minimaxMax fuel (g.setCellValue c vp.1) (depth + 1),
           acc.2 + vp.2)) (0, 0)
      Int.fdiv acc.1 acc.2)).foldl min MAX_UTILITY

end

/-- The Knuth–Moore fail-soft relation between a node's true minimax value `v`
and the value `w` returned by its alpha-beta–pruned search within bounds
`(a, b)`: inside the window the two agree; outside it the pruned value fails
on the same side, between the bound and the true value. -/
def FailSoftCases (v w a b : Int) : Prop :=
  (v ≤ a → v ≤ w ∧ w ≤ a) ∧ (a < v → v < b → w = v) ∧ (b ≤ v → b ≤ w ∧ w ≤ v)

/-! ## Spec-side evaluator terms (for the evaluator decomposition claim) -/

/-- All board positions, row-major. -/
def Grid.positions (g : Grid) : List Pos :=
  ((List.range g.size).map (fun i => (List.range g.size).map (fun j => (i, j)))).flatten

/-- Spec-side `emptyCount`: the number of zero-valued cells. -/
def emptyCount (g : Grid) : Nat :=
  g.positions.countP (fun p => g.cell p.1 p.2 == 0)

/-- Spec-side `maxTile`: the maximum raw tile value over all cells. -/
def maxTile (g : Grid) : Nat :=
  g.positions.foldl (fun m p => max m (g.cell p.1 p.2)) 0

/-! ## Concrete boards used as test inputs -/

/-- The fixed test board of the source's self-test entry point. -/
def specBoard : Grid := ⟨4, [[0,0,2,4],[0,0,2,4],[0,2,2,2],[0,2,2,1024]]⟩

/-- A full board with no equal adjacent tiles: no legal shift in any
direction, no empty cell, and the maximum tile (4) is below the target. -/
def deadlockBoard : Grid := ⟨4, [[2,4,2,4],[4,2,4,2],[2,4,2,4],[4,2,4,2]]⟩

/-- A board that has reached the target tile value (2048) and still has legal
moves. -/
def reachedBoard : Grid := ⟨4, [[2048,2,4,8],[0,0,0,0],[0,0,0,0],[0,0,0,0]]⟩

/-! ## Object-identity model of the search's board mutations

Python boards are heap objects mutated in place; `clone` allocates a new one.
To state the frame property (the caller's board is never mutated by a callee)
the searches are re-run over an explicit store: a board argument becomes a
reference (index) into a list of boards, `clone` appends a copy, and `move` /
`setCellValue` destructively update the referenced entry. -/

/-- The heap of live board objects. -/
abbrev Store := List Grid

/-- Read the board referenced by `ref`. -/
def Store.deref (s : Store) (ref : Nat) : Grid := s.getD ref ⟨0, []⟩

/-- `grid.clone()`: allocate an independent copy, returning its reference. -/
def Store.clone (s : Store) (ref : Nat) : Store × Nat :=
  (s ++ [s.deref ref], s.length)

/-- `grid.move(dir)` as an in-place mutation of the referenced board. -/
def Store.moveAt (s : Store) (ref : Nat) (m : Move) : Store :=
  s.set ref ((s.deref ref).move m)

/-- `grid.setCellValue(pos, value)` as an in-place mutation of the referenced
board. -/
def Store.setCellAt (s : Store) (ref : Nat) (p : Pos) (v : Nat) : Store :=
  s.set ref ((s.deref ref).setCellValue p v)

/-- The move loop of `__maximize` over the store: clone the current board,
shift the clone in place, recurse on the clone's reference. -/
def maxLoopST (minimizeF : Store → Nat → Nat → Int → Int → (Option Pos × Int) × Store)
    (ref : Nat) (depth : Nat) (beta : Int) :
    List Move → Store → Option Move → Int → Int → (Option Move × Int) × Store
  | [], s, max_move, max_utility, _ => ((max_move, max_utility), s)
  | move :: rest, s, max_move, max_utility, alpha =>
    let cl := s.clone ref
    let s2 := cl.1.moveAt cl.2 move
    let res := minimizeF s2 cl.2 (depth + 1) alpha beta
    let utility := res.1.2
    let best := if utility > max_utility then (some move, utility)
                else (max_move, max_utility)
    if utility ≥ beta then (best, res.2)
    else maxLoopST minimizeF ref depth beta rest res.2 best.1 best.2
      (if utility > alpha then utility else alpha)

/-- The inner expectation loop of `__minimize` over the store: mutate the one
reused clone in place for each candidate value. -/
def probaLoopST (maximizeF : Store → Nat → Nat → Int → Int → (Option Move × Int) × Store)
    (copyRef : Nat) (cellPos : Pos) (depth : Nat) (alpha beta : Int) :
    List (Nat × Int) → Store → Int → Int → (Int × Int) × Store
  | [], s, utility, freq => ((utility, freq), s)
  | (value, proba) :: rest, s, utility, freq =>
    let s1 := s.setCellAt copyRef cellPos value
    let res := maximizeF s1 copyRef (depth + 1) alpha beta
    probaLoopST maximizeF copyRef cellPos depth alpha beta rest res.2
      (utility + proba * res.1.2) (freq + proba)

/-- The cell loop of `__minimize` over the store: clone the current board once
per cell, then run the expectation loop on that clone. -/
def minLoopST (maximizeF : Store → Nat → Nat → Int → Int → (Option Move × Int) × Store)
    (ref : Nat) (depth : Nat) (alpha : Int) :
    List Pos → Store → Option Pos → Int → Int → (Option Pos × Int) × Store
  | [], s, min_move, min_utility, _ => ((min_move, min_utility), s)
  | cellPos :: rest, s, min_move, min_utility, beta =>
    let cl := s.clone ref
    let acc := probaLoopST maximizeF cl.2 cellPos depth alpha beta TILE_VALUE_PROBA cl.1 0 0
    let utility := Int.fdiv acc.1.1 acc.1.2
    let best := if utility < min_utility then (some cellPos, utility)
                else (min_move, min_utility)
    if utility ≤ alpha then (best, acc.2)
    else minLoopST maximizeF ref depth alpha rest acc.2 best.1 best.2
      (if utility < beta then utility else beta)

/-- Simultaneous fueled recursion of the two store-level plies (first
component `__maximize`, second `__minimize`), mirroring `searchFns`. -/
def searchFnsST : Nat →
    (Store → Nat → Nat → Int → Int → (Option Move × Int) × Store) ×
    (Store → Nat → Nat → Int → Int → (Option Pos × Int) × Store)
  | 0 => (fun s ref _ _ _ => ((none, eval (s.deref ref)), s),
          fun s ref _ _ _ => ((none, eval (s.deref ref)), s))
  | fuel + 1 =>
    let prev := searchFnsST fuel
    (fun s ref depth alpha beta =>
      if depth = MAX_DEPTH || is_terminal_state (s.deref ref) then
        ((none, eval (s.deref ref)), s)
      else maxLoopST prev.2 ref depth beta (s.deref ref).getAvailableMoves s
        none (-MAX_UTILITY) alpha,
     fun s ref depth alpha beta =>
      if depth = MAX_DEPTH || is_terminal_state (s.deref ref) then
        ((none, eval (s.deref ref)), s)
      else minLoopST prev.1 ref depth alpha (s.deref ref).getAvailableCells s
        none MAX_UTILITY beta)

/-- `PlayerAI.__maximize` over the store. -/
def maximizeST (fuel : Nat) (s : Store) (ref : Nat) (depth : Nat)
    (alpha beta : Int) : (Option Move × Int) × Store :=
  (searchFnsST fuel).1 s ref depth alpha beta

/-- `PlayerAI.__minimize` over the store. -/
def minimizeST (fuel : Nat) (s : Store) (ref : Nat) (depth : Nat)
    (alpha beta : Int) : (Option Pos × Int) × Store :=
  (searchFnsST fuel).2 s ref depth alpha beta

/-- `PlayerAI.getMove` over the store (the fallback branch only reads the
board, so the store passes through it unchanged). -/
def getMoveST (s : Store) (ref : Nat) (r : Nat) : Except Unit Move × Store :=
  let res := maximizeST MAX_DEPTH s ref 0 (-MAX_UTILITY) MAX_UTILITY
  match res.1.1 with
  | some m => (.ok m, res.2)
  | none =>
    let moves := ((res.2).deref ref).getAvailableMoves
    if h : moves.length = 0 then (.error (), res.2)
    else (.ok (moves.get ⟨r % moves.length, Nat.mod_lt _ (Nat.pos_of_ne_zero h)⟩), res.2)

/-! ## Evaluator decomposition (C5) -/

/-- The statistics fold computes the running maximum and the zero count. -/
theorem foldl_stats_eq (g : Grid) (l : List Pos) (m e : Nat) :
    l.foldl (fun (acc : Nat × Nat) p =>
      let tile_value := g.cell p.1 p.2
      let mx := if acc.1 < tile_value then tile_value else acc.1
      let ec := if tile_value = 0 then acc.2 + 1 else acc.2
      (mx, ec)) (m, e)
    = (l.foldl (fun m p => max m (g.cell p.1 p.2)) m,
       e + l.countP (fun p => g.cell p.1 p.2 == 0)) := by
  induction l generalizing m e with
  | nil => simp
  | cons p l ih =>
    simp only [List.foldl_cons, List.countP_cons, ih, Prod.mk.injEq]
    constructor
    · congr 1
      rw [Nat.max_def]
      split <;> split <;> omega
    · by_cases h : g.cell p.1 p.2 = 0
      · simp [h]
        omega
      · simp [h]

/-- The single pass of `__eval` agrees with the spec-side `maxTile` and
`emptyCount`. -/
theorem evalStats_eq (g : Grid) : evalStats g = (maxTile g, emptyCount g) := by
  simpa [evalStats, maxTile, emptyCount, Grid.positions] using
    foldl_stats_eq g (Grid.positions g) 0 0

/-- C5 — the utility is the weighted sum
`10·smoothness + 20·monotonicity + 80·emptyCount + 10·maxTile` with
`emptyCount` counting zero cells and `maxTile` the maximum raw tile value;
on the fixed test board those last two terms contribute
`80*6 + 10*1024 = 10720`. -/
theorem eval_decomposition :
    (∀ g : Grid, eval g =
      10 * smoothness g + 20 * monotonicity g +
        80 * (emptyCount g : Int) + 10 * (maxTile g : Int)) ∧
    emptyCount specBoard = 6 ∧ maxTile specBoard = 1024 ∧
    eval specBoard =
      10 * smoothness specBoard + 20 * monotonicity specBoard + 10720 := by
  have hall : ∀ g : Grid, eval g =
      10 * smoothness g + 20 * monotonicity g +
        80 * (emptyCount g : Int) + 10 * (maxTile g : Int) := by
    intro g
    simp [eval, evalStats_eq]
  refine ⟨hall, by decide, by decide, ?_⟩
  rw [hall specBoard]
  norm_num [show emptyCount specBoard = 6 by decide,
    show maxTile specBoard = 1024 by decide]
  ring

/-! ## The exponent function (C6) -/

/-- C6 counterexample — the exponent assigned to the tile value `4 = 2^2` is
`3`, not `2`: the claim that every `2^k` maps to `k` fails at `k = 2`. -/
theorem log2_counterexample : ¬ log2 (2 ^ 2) = 2 := by decide

/-- `popcountFuel` is independent of the fuel once it covers the argument. -/
theorem popcountFuel_stable (n : Nat) : ∀ f f', n ≤ f → n ≤ f' →
    popcountFuel f n = popcountFuel f' n := by
  induction n using Nat.strong_induction_on with
  | _ n ih =>
    intro f f' hf hf'
    cases f with
    | zero =>
      have hn : n = 0 := by omega
      subst hn
      cases f' <;> simp [popcountFuel]
    | succ f =>
      cases f' with
      | zero =>
        have hn : n = 0 := by omega
        subst hn
        simp [popcountFuel]
      | succ f' =>
        by_cases hn : n = 0
        · simp [popcountFuel, hn]
        · simp only [popcountFuel, hn, if_false]
          congr 1
          have hlt : n / 2 < n := Nat.div_lt_self (Nat.pos_of_ne_zero hn) one_lt_two
          exact ih (n / 2) hlt f f' (by omega) (by omega)

/-- Unfolding equation for `popcount` on a nonzero argument. -/
theorem popcount_succ {n : Nat} (hn : n ≠ 0) :
    popcount n = n % 2 + popcount (n / 2) := by
  obtain ⟨m, rfl⟩ : ∃ m, n = m + 1 := ⟨n - 1, by omega⟩
  show popcountFuel (m + 1) (m + 1) = _
  simp only [popcountFuel, hn, if_false]
  congr 1
  exact popcountFuel_stable ((m + 1) / 2) m ((m + 1) / 2) (by omega) (le_refl _)

/-- `2^k` and `2^k - 1` have disjoint bits, so their xor is `2^(k+1) - 1`. -/
theorem xor_two_pow_pred (k : Nat) : (2 ^ k) ^^^ (2 ^ k - 1) = 2 ^ (k + 1) - 1 := by
  apply Nat.eq_of_testBit_eq
  intro i
  rw [Nat.testBit_xor, Nat.testBit_two_pow, Nat.testBit_two_pow_sub_one,
    Nat.testBit_two_pow_sub_one]
  rcases Nat.lt_trichotomy i k with h | h | h
  · simp [show k ≠ i from by omega, h, show i < k + 1 from by omega]
  · subst h
    simp
  · simp [show k ≠ i from by omega, show ¬ i < k from by omega,
      show ¬ i < k + 1 from by omega]

/-- The all-ones number `2^k - 1` has `k` set bits. -/
theorem popcount_two_pow_sub_one (k : Nat) : popcount (2 ^ k - 1) = k := by
  induction k with
  | zero => rfl
  | succ k ih =>
    have hne : 2 ^ (k + 1) - 1 ≠ 0 := by
      have := Nat.one_lt_two_pow_iff.2 (by omega : k + 1 ≠ 0)
      omega
    have hodd : (2 ^ (k + 1) - 1) % 2 = 1 := by
      have : 2 ^ (k + 1) % 2 = 0 := by
        simp [Nat.pow_succ, Nat.mul_mod_left]
      omega
    have hdiv : (2 ^ (k + 1) - 1) / 2 = 2 ^ k - 1 := by
      have h1 : 2 ^ (k + 1) = 2 * 2 ^ k := by ring
      omega
    rw [popcount_succ hne, hodd, hdiv, ih]
    omega

/-- C6 (amended) — the exponent function maps 0 to 0 and every power `2^k` to
`k + 1` (one more than the exponent): `bin(v ^ (v-1))` keeps the lowest set
bit itself in addition to the bits below it. -/
theorem log2_pow_eq_succ : (∀ k : Nat, log2 (2 ^ k) = k + 1) ∧ log2 0 = 0 := by
  refine ⟨fun k => ?_, rfl⟩
  have hne : (2 : Nat) ^ k ≠ 0 := Nat.pos_iff_ne_zero.1 (Nat.pos_pow_of_pos k (by omega))
  simp only [log2, hne, ne_eq, not_false_iff, if_true]
  rw [xor_two_pow_pred, popcount_two_pow_sub_one]

/-! ## The heuristic terms only penalize (C10) -/

/-- A list of non-positive integers has non-positive sum. -/
theorem list_sum_nonpos : ∀ {l : List Int}, (∀ x ∈ l, x ≤ 0) → l.sum ≤ 0
  | [], _ => le_refl 0
  | x :: l, h => by
    simp only [List.sum_cons]
    have := list_sum_nonpos (fun y hy => h y (List.mem_cons_of_mem x hy))
    have := h x (List.mem_cons_self x l)
    omega

/-- Each accumulator of the column scan only ever decreases. -/
theorem monoColAux_nonpos (g : Grid) (col : Nat) :
    ∀ (fuel cr nr : Nat) (d u : Int), d ≤ 0 → u ≤ 0 →
      (monoColAux g col fuel cr nr d u).1 ≤ 0 ∧ (monoColAux g col fuel cr nr d u).2 ≤ 0 := by
  intro fuel
  induction fuel with
  | zero => intro cr nr d u hd hu; exact ⟨hd, hu⟩
  | succ fuel ih =>
    intro cr nr d u hd hu
    simp only [monoColAux]
    split
    · split <;> split <;>
        (rename_i hcmp; refine ih _ _ _ _ ?_ ?_ <;> omega)
    · exact ⟨hd, hu⟩

/-- Each accumulator of the row scan only ever decreases. -/
theorem monoRowAux_nonpos (g : Grid) (row : Nat) :
    ∀ (fuel cc nc : Nat) (r l : Int), r ≤ 0 → l ≤ 0 →
      (monoRowAux g row fuel cc nc r l).1 ≤ 0 ∧ (monoRowAux g row fuel cc nc r l).2 ≤ 0 := by
  intro fuel
  induction fuel with
  | zero => intro cc nc r l hr hl; exact ⟨hr, hl⟩
  | succ fuel ih =>
    intro cc nc r l hr hl
    simp only [monoRowAux]
    split
    · split <;> split <;>
        (rename_i hcmp; refine ih _ _ _ _ ?_ ?_ <;> omega)
    · exact ⟨hr, hl⟩

/-- Smoothness only ever subtracts absolute exponent differences. -/
theorem smoothness_nonpos (g : Grid) : smoothness g ≤ 0 := by
  apply list_sum_nonpos
  intro x hx
  simp only [List.mem_map] at hx
  obtain ⟨i, _, rfl⟩ := hx
  apply list_sum_nonpos
  intro y hy
  simp only [List.mem_map] at hy
  obtain ⟨j, _, rfl⟩ := hy
  split
  · apply list_sum_nonpos
    intro z hz
    simp only [List.mem_map] at hz
    obtain ⟨v, _, rfl⟩ := hz
    split
    · simp
    · exact le_refl 0
  · exact le_refl 0

/-- Every monotonicity accumulator only receives non-positive contributions. -/
theorem monotonicity_nonpos (g : Grid) : monotonicity g ≤ 0 := by
  have hcol : ∀ (l : List Nat) (acc : Int × Int), acc.1 ≤ 0 → acc.2 ≤ 0 →
      (l.foldl (fun (acc : Int × Int) col =>
        monoColAux g col (g.size + 1) 0 0 acc.1 acc.2) acc).1 ≤ 0 ∧
      (l.foldl (fun (acc : Int × Int) col =>
        monoColAux g col (g.size + 1) 0 0 acc.1 acc.2) acc).2 ≤ 0 := by
    intro l
    induction l with
    | nil => intro acc h1 h2; exact ⟨h1, h2⟩
    | cons c l ih =>
      intro acc h1 h2
      simp only [List.foldl_cons]
      have := monoColAux_nonpos g c (g.size + 1) 0 0 acc.1 acc.2 h1 h2
      exact ih _ this.1 this.2
  have hrow : ∀ (l : List Nat) (acc : Int × Int), acc.1 ≤ 0 → acc.2 ≤ 0 →
      (l.foldl (fun (acc : Int × Int) row =>
        monoRowAux g row (g.size + 1) 0 0 acc.1 acc.2) acc).1 ≤ 0 ∧
      (l.foldl (fun (acc : Int × Int) row =>
        monoRowAux g row (g.size + 1) 0 0 acc.1 acc.2) acc).2 ≤ 0 := by
    intro l
    induction l with
    | nil => intro acc h1 h2; exact ⟨h1, h2⟩
    | cons c l ih =>
      intro acc h1 h2
      simp only [List.foldl_cons]
      have := monoRowAux_nonpos g c (g.size + 1) 0 0 acc.1 acc.2 h1 h2
      exact ih _ this.1 this.2
  have h1 := hcol (List.range g.size) (0, 0) (le_refl 0) (le_refl 0)
  have h2 := hrow (List.range g.size) (0, 0) (le_refl 0) (le_refl 0)
  simp only [monotonicity]
  omega

/-- C10 — smoothness only subtracts absolute exponent differences and every
monotonicity accumulator only receives non-positive contributions, so both
heuristic terms are non-positive on every board. -/
theorem smoothness_monotonicity_nonpos (g : Grid) :
    smoothness g ≤ 0 ∧ monotonicity g ≤ 0 :=
  ⟨smoothness_nonpos g, monotonicity_nonpos g⟩

/-! ## Unfolding equations for the fueled search -/

/-- Out of fuel, `__maximize` evaluates statically. -/
theorem maximize_zero (g : Grid) (d : Nat) (a b : Int) :
    maximize 0 g d a b = (none, eval g) := rfl

/-- Unfolding `__maximize` at positive fuel: the cutoff check, then the move
loop with the next ply at one fuel less. -/
theorem maximize_succ (f : Nat) (g : Grid) (d : Nat) (a b : Int) :
    maximize (f + 1) g d a b =
      if (d = MAX_DEPTH) || is_terminal_state g then (none, eval g)
      else maxLoop (minimize f) g d b g.getAvailableMoves none (-MAX_UTILITY) a := rfl

/-- Out of fuel, `__minimize` evaluates statically. -/
theorem minimize_zero (g : Grid) (d : Nat) (a b : Int) :
    minimize 0 g d a b = (none, eval g) := rfl

/-- Unfolding `__minimize` at positive fuel: the cutoff check, then the cell
loop with the next ply at one fuel less. -/
theorem minimize_succ (f : Nat) (g : Grid) (d : Nat) (a b : Int) :
    minimize (f + 1) g d a b =
      if (d = MAX_DEPTH) || is_terminal_state g then (none, eval g)
      else minLoop (maximize f) g d a g.getAvailableCells none MAX_UTILITY b := rfl

/-- At a cutoff (depth bound or terminal board) the maximizing ply returns the
static evaluation at every fuel. -/
theorem maximize_cutoff (F : Nat) (g : Grid) (d : Nat) (a b : Int)
    (h : ((d = MAX_DEPTH) || is_terminal_state g) = true) :
    maximize F g d a b = (none, eval g) := by
  cases F with
  | zero => rfl
  | succ f => rw [maximize_succ, if_pos h]

/-- At a cutoff the minimizing ply returns the static evaluation at every
fuel. -/
theorem minimize_cutoff (F : Nat) (g : Grid) (d : Nat) (a b : Int)
    (h : ((d = MAX_DEPTH) || is_terminal_state g) = true) :
    minimize F g d a b = (none, eval g) := by
  cases F with
  | zero => rfl
  | succ f => rw [minimize_succ, if_pos h]

/-! ## Empty child lists hit the sentinel, not the evaluator (C1) -/

/-- C1 counterexample — on the full deadlocked board (no legal shift, no empty
cell, not terminal) a non-cutoff call of `__maximize` returns
`(none, -MAX_UTILITY)` and `__minimize` returns `(none, MAX_UTILITY)`, not
`(none, evaluate(board))` as claimed. -/
theorem search_empty_children_counterexample :
    (0 < MAX_DEPTH ∧ is_terminal_state deadlockBoard = false ∧
      deadlockBoard.getAvailableMoves = [] ∧ deadlockBoard.getAvailableCells = []) ∧
    maximize (MAX_DEPTH - 0) deadlockBoard 0 (-MAX_UTILITY) MAX_UTILITY ≠
      (none, eval deadlockBoard) ∧
    minimize (MAX_DEPTH - 0) deadlockBoard 0 (-MAX_UTILITY) MAX_UTILITY ≠
      (none, eval deadlockBoard) := by decide

/-- C1 (amended) — at a non-cutoff call, `__maximize` with no legal shift
direction returns the untouched loop initialization `(none, -MAX_UTILITY)`,
and `__minimize` with no empty cell returns `(none, MAX_UTILITY)`; the static
evaluator is not consulted. -/
theorem search_empty_children_sentinel (g : Grid) (d : Nat) (a b : Int)
    (hd : d < MAX_DEPTH) (ht : is_terminal_state g = false) :
    (g.getAvailableMoves = [] →
      maximize (MAX_DEPTH - d) g d a b = (none, -MAX_UTILITY)) ∧
    (g.getAvailableCells = [] →
      minimize (MAX_DEPTH - d) g d a b = (none, MAX_UTILITY)) := by
  obtain ⟨f, hf⟩ : ∃ f, MAX_DEPTH - d = f + 1 :=
    ⟨MAX_DEPTH - d - 1, by omega⟩
  have hcond : ((d = MAX_DEPTH) || is_terminal_state g) = false := by
    simp [ht]
    omega
  constructor <;> intro hemp <;> rw [hf]
  · rw [maximize_succ, if_neg (by simp [hcond]), hemp]
    rfl
  · rw [minimize_succ, if_neg (by simp [hcond]), hemp]
    rfl

/-- C1 witness — the amended statement applied to the deadlocked board. -/
theorem search_empty_children_sentinel_witness :
    (0 < MAX_DEPTH ∧ is_terminal_state deadlockBoard = false ∧
      deadlockBoard.getAvailableMoves = [] ∧ deadlockBoard.getAvailableCells = []) ∧
    maximize (MAX_DEPTH - 0) deadlockBoard 0 (-MAX_UTILITY) MAX_UTILITY =
      (none, -MAX_UTILITY) ∧
    minimize (MAX_DEPTH - 0) deadlockBoard 0 (-MAX_UTILITY) MAX_UTILITY =
      (none, MAX_UTILITY) :=
  ⟨by decide,
   (search_empty_children_sentinel deadlockBoard 0 (-MAX_UTILITY) MAX_UTILITY
     (by decide) (by decide)).1 (by decide),
   (search_empty_children_sentinel deadlockBoard 0 (-MAX_UTILITY) MAX_UTILITY
     (by decide) (by decide)).2 (by decide)⟩

/-! ## Fuel stability: the recursion needs exactly `MAX_DEPTH - depth` plies
(C9) -/

/-- The move loop only depends on the minimizing ply's behaviour at `depth+1`. -/
theorem maxLoop_congr (mf₁ mf₂ : Grid → Nat → Int → Int → Option Pos × Int)
    (g : Grid) (depth : Nat) (beta : Int)
    (h : ∀ g' a' b', mf₁ g' (depth + 1) a' b' = mf₂ g' (depth + 1) a' b') :
    ∀ (l : List Move) (mm : Option Move) (mu al : Int),
      maxLoop mf₁ g depth beta l mm mu al = maxLoop mf₂ g depth beta l mm mu al := by
  intro l
  induction l with
  | nil => intro mm mu al; rfl
  | cons m rest ih =>
    intro mm mu al
    simp only [maxLoop, h, ih]

/-- The expectation loop only depends on the maximizing ply's behaviour at
`depth+1`. -/
theorem probaLoop_congr (mf₁ mf₂ : Grid → Nat → Int → Int → Option Move × Int)
    (cellPos : Pos) (depth : Nat) (alpha beta : Int)
    (h : ∀ g' a' b', mf₁ g' (depth + 1) a' b' = mf₂ g' (depth + 1) a' b') :
    ∀ (l : List (Nat × Int)) (u fr : Int) (gc : Grid),
      probaLoop mf₁ cellPos depth alpha beta l u fr gc =
      probaLoop mf₂ cellPos depth alpha beta l u fr gc := by
  intro l
  induction l with
  | nil => intro u fr gc; rfl
  | cons vp rest ih =>
    intro u fr gc
    cases vp with
    | mk value proba => simp only [probaLoop, h, ih]

/-- The cell loop only depends on the maximizing ply's behaviour at `depth+1`. -/
theorem minLoop_congr (mf₁ mf₂ : Grid → Nat → Int → Int → Option Move × Int)
    (g : Grid) (depth : Nat) (alpha : Int)
    (h : ∀ g' a' b', mf₁ g' (depth + 1) a' b' = mf₂ g' (depth + 1) a' b') :
    ∀ (l : List Pos) (mn : Option Pos) (mu be : Int),
      minLoop mf₁ g depth alpha l mn mu be = minLoop mf₂ g depth alpha l mn mu be := by
  intro l
  induction l with
  | nil => intro mn mu be; rfl
  | cons c rest ih =>
    intro mn mu be
    simp only [minLoop, probaLoop_congr mf₁ mf₂ c depth alpha be h, ih]

/-- For `depth ≤ MAX_DEPTH`, any fuel covering the remaining
`MAX_DEPTH - depth` plies computes the same result: the mutual recursion
terminates within the depth bound. -/
theorem searchFns_stable : ∀ (F F' : Nat) (g : Grid) (d : Nat) (a b : Int),
    d ≤ MAX_DEPTH → MAX_DEPTH ≤ d + F → MAX_DEPTH ≤ d + F' →
    (searchFns F).1 g d a b = (searchFns F').1 g d a b ∧
    (searchFns F).2 g d a b = (searchFns F').2 g d a b := by
  intro F
  induction F with
  | zero =>
    intro F' g d a b hd hF hF'
    have hdeq : d = MAX_DEPTH := by omega
    have hcond : ((d = MAX_DEPTH) || is_terminal_state g) = true := by simp [hdeq]
    exact ⟨(maximize_cutoff 0 g d a b hcond).trans (maximize_cutoff F' g d a b hcond).symm,
           (minimize_cutoff 0 g d a b hcond).trans (minimize_cutoff F' g d a b hcond).symm⟩
  | succ F ih =>
    intro F' g d a b hd hF hF'
    by_cases hcond : ((d = MAX_DEPTH) || is_terminal_state g) = true
    · exact ⟨(maximize_cutoff (F + 1) g d a b hcond).trans
               (maximize_cutoff F' g d a b hcond).symm,
             (minimize_cutoff (F + 1) g d a b hcond).trans
               (minimize_cutoff F' g d a b hcond).symm⟩
    · have hdlt : d < MAX_DEPTH := by
        rcases Nat.lt_or_ge d MAX_DEPTH with h | h
        · exact h
        · exact absurd (by simp [show d = MAX_DEPTH from by omega]) hcond
      obtain ⟨f', rfl⟩ : ∃ f', F' = f' + 1 := ⟨F' - 1, by omega⟩
      have hstep : ∀ g' a' b',
          (searchFns F).1 g' (d + 1) a' b' = (searchFns f').1 g' (d + 1) a' b' :=
        fun g' a' b' => (ih f' g' (d + 1) a' b' (by omega) (by omega) (by omega)).1
      have hstep2 : ∀ g' a' b',
          (searchFns F).2 g' (d + 1) a' b' = (searchFns f').2 g' (d + 1) a' b' :=
        fun g' a' b' => (ih f' g' (d + 1) a' b' (by omega) (by omega) (by omega)).2
      constructor
      · show maximize (F + 1) g d a b = maximize (f' + 1) g d a b
        rw [maximize_succ, maximize_succ, if_neg (by simpa using hcond),
          if_neg (by simpa using hcond)]
        exact maxLoop_congr _ _ g d b hstep2 _ _ _ _
      · show minimize (F + 1) g d a b = minimize (f' + 1) g d a b
        rw [minimize_succ, minimize_succ, if_neg (by simpa using hcond),
          if_neg (by simpa using hcond)]
        exact minLoop_congr _ _ g d a hstep _ _ _ _

/-- C9 — for every board and starting depth `d ≤ 4`, the mutual recursion
terminates within `MAX_DEPTH - d` plies (any fuel beyond that bound computes
the same result, so the depth — increased by one at each recursive call —
never passes the bound), and both procedures stop with the static evaluation
exactly at the cutoff `depth = MAX_DEPTH` or a terminal board. -/
theorem search_depth_bounded (g : Grid) (d : Nat) (a b : Int) (F : Nat)
    (hd : d ≤ MAX_DEPTH) (hF : MAX_DEPTH - d ≤ F) :
    (maximize F g d a b = maximize (MAX_DEPTH - d) g d a b ∧
     minimize F g d a b = minimize (MAX_DEPTH - d) g d a b) ∧
    ((d = MAX_DEPTH ∨ is_terminal_state g = true) →
      maximize F g d a b = (none, eval g) ∧ minimize F g d a b = (none, eval g)) := by
  constructor
  · exact searchFns_stable F (MAX_DEPTH - d) g d a b hd (by omega) (by omega)
  · intro hcut
    have hcond : ((d = MAX_DEPTH) || is_terminal_state g) = true := by
      rcases hcut with h | h <;> simp [h]
    exact ⟨maximize_cutoff F g d a b hcond, minimize_cutoff F g d a b hcond⟩

/-- C9 witness — the statement applied at depth 2 with surplus fuel on the
fixed test board. -/
theorem search_depth_bounded_witness :
    (2 ≤ MAX_DEPTH ∧ MAX_DEPTH - 2 ≤ 9) ∧
    ((maximize 9 specBoard 2 (-MAX_UTILITY) MAX_UTILITY =
        maximize (MAX_DEPTH - 2) specBoard 2 (-MAX_UTILITY) MAX_UTILITY ∧
      minimize 9 specBoard 2 (-MAX_UTILITY) MAX_UTILITY =
        minimize (MAX_DEPTH - 2) specBoard 2 (-MAX_UTILITY) MAX_UTILITY) ∧
     ((2 = MAX_DEPTH ∨ is_terminal_state specBoard = true) →
       maximize 9 specBoard 2 (-MAX_UTILITY) MAX_UTILITY = (none, eval specBoard) ∧
       minimize 9 specBoard 2 (-MAX_UTILITY) MAX_UTILITY = (none, eval specBoard))) :=
  ⟨by decide,
   search_depth_bounded specBoard 2 (-MAX_UTILITY) MAX_UTILITY 9 (by decide) (by decide)⟩

/-! ## The chosen move is legal (C3, C4, C7) -/

/-- Any move coming out of the move loop is the incoming best or one of the
iterated moves. -/
theorem maxLoop_choice_mem (mf : Grid → Nat → Int → Int → Option Pos × Int)
    (g : Grid) (depth : Nat) (beta : Int) :
    ∀ (l : List Move) (mm : Option Move) (mu al : Int),
      (maxLoop mf g depth beta l mm mu al).1 = mm ∨
      ∃ m ∈ l, (maxLoop mf g depth beta l mm mu al).1 = some m := by
  intro l
  induction l with
  | nil => intro mm mu al; exact Or.inl rfl
  | cons m rest ih =>
    intro mm mu al
    simp only [maxLoop]
    set u := (mf (g.move m) (depth + 1) al beta).2 with hu
    by_cases hbr : u ≥ beta
    · rw [if_pos hbr]
      by_cases hgt : u > mu
      · rw [if_pos hgt]
        exact Or.inr ⟨m, List.mem_cons_self m rest, rfl⟩
      · rw [if_neg hgt]
        exact Or.inl rfl
    · rw [if_neg hbr]
      by_cases hgt : u > mu
      · rw [if_pos hgt]
        rcases ih (some m) u (if u > al then u else al) with h | ⟨m', hm', h⟩
        · exact Or.inr ⟨m, List.mem_cons_self m rest, h⟩
        · exact Or.inr ⟨m', List.mem_cons_of_mem m hm', h⟩
      · rw [if_neg hgt]
        rcases ih mm mu (if u > al then u else al) with h | ⟨m', hm', h⟩
        · exact Or.inl h
        · exact Or.inr ⟨m', List.mem_cons_of_mem m hm', h⟩

/-- The root search never invents a move: if it returns one, that move is in
`getAvailableMoves`. -/
theorem maximize_choice_mem (F : Nat) (g : Grid) (d : Nat) (a b : Int) (m : Move)
    (h : (maximize F g d a b).1 = some m) : m ∈ g.getAvailableMoves := by
  cases F with
  | zero => simp [maximize_zero] at h
  | succ f =>
    rw [maximize_succ] at h
    by_cases hcond : ((d = MAX_DEPTH) || is_terminal_state g) = true
    · rw [if_pos hcond] at h
      simp at h
    · rw [if_neg hcond] at h
      rcases maxLoop_choice_mem (minimize f) g d b g.getAvailableMoves none
          (-MAX_UTILITY) a with h' | ⟨m', hm', h'⟩
      · rw [h'] at h
        simp at h
      · rw [h'] at h
        obtain rfl : m' = m := by simpa using h
        exact hm'

/-- When the board has a legal move, `getMove` returns one of the legal
moves (shared backbone of the move-legality claims). -/
theorem getMove_mem_of_moves (g : Grid) (r : Nat)
    (hmv : g.getAvailableMoves ≠ []) :
    ∃ m, getMove g r = .ok m ∧ m ∈ g.getAvailableMoves := by
  cases hfirst : (maximize MAX_DEPTH g 0 (-MAX_UTILITY) MAX_UTILITY).1 with
  | some m =>
    refine ⟨m, ?_, maximize_choice_mem MAX_DEPTH g 0 _ _ m hfirst⟩
    simp [getMove, hfirst]
  | none =>
    have hlen : g.getAvailableMoves.length ≠ 0 := fun h => hmv (List.length_eq_zero.1 h)
    refine ⟨g.getAvailableMoves.get
      ⟨r % g.getAvailableMoves.length, Nat.mod_lt _ (Nat.pos_of_ne_zero hlen)⟩, ?_, ?_⟩
    · simp [getMove, hfirst, hlen]
    · exact List.get_mem _ _ _

/-- C3 — on a board with at least one legal move and below the target tile
value, `getMove` returns a direction that is a member of
`getAvailableMoves()`. -/
theorem getMove_returns_legal_move (g : Grid) (r : Nat)
    (hmv : g.getAvailableMoves ≠ [])
    (_hbelow : g.getMaxTile < TARGET_TILE_VALUE) :
    ∃ m, getMove g r = .ok m ∧ m ∈ g.getAvailableMoves :=
  getMove_mem_of_moves g r hmv

/-- C3 witness — the legality statement applied to the fixed test board. -/
theorem getMove_returns_legal_move_witness :
    (specBoard.getAvailableMoves ≠ [] ∧
      specBoard.getMaxTile < TARGET_TILE_VALUE) ∧
    ∃ m, getMove specBoard 1 = .ok m ∧ m ∈ specBoard.getAvailableMoves :=
  ⟨⟨by decide, by decide⟩,
   getMove_returns_legal_move specBoard 1 (by decide) (by decide)⟩

/-- C4 counterexample — on the deadlocked board (no legal move at the root)
`getMove` hits `randint(0, -1)` and raises `ValueError` (modelled
`Except.error ()`) instead of returning `none`. -/
theorem getMove_raises_counterexample :
    deadlockBoard.getAvailableMoves = [] ∧
    getMove deadlockBoard 0 = .error () := by
  constructor
  · decide
  · rfl

/-- C4 (amended) — `getMove` returns a legal direction whenever the board has
at least one legal move (even a terminal board), but on a board with no legal
move the fallback indexes an empty list with `randint(0, -1)` and raises
rather than returning none. -/
theorem getMove_total_or_raises (g : Grid) (r : Nat) :
    (g.getAvailableMoves = [] → getMove g r = .error ()) ∧
    (g.getAvailableMoves ≠ [] →
      ∃ m, getMove g r = .ok m ∧ m ∈ g.getAvailableMoves) := by
  constructor
  · intro hemp
    have hfirst : (maximize MAX_DEPTH g 0 (-MAX_UTILITY) MAX_UTILITY).1 = none := by
      cases hf : (maximize MAX_DEPTH g 0 (-MAX_UTILITY) MAX_UTILITY).1 with
      | none => rfl
      | some m =>
        have := maximize_choice_mem MAX_DEPTH g 0 _ _ m hf
        rw [hemp] at this
        simp at this
    have hlen : g.getAvailableMoves.length = 0 := by rw [hemp]; rfl
    simp [getMove, hfirst, hlen]
  · exact getMove_mem_of_moves g r

/-- C4 witness — both branches of the amended statement at concrete boards. -/
theorem getMove_total_or_raises_witness :
    (deadlockBoard.getAvailableMoves = [] ∧
      getMove deadlockBoard 5 = .error ()) ∧
    (specBoard.getAvailableMoves ≠ [] ∧
      ∃ m, getMove specBoard 5 = .ok m ∧ m ∈ specBoard.getAvailableMoves) :=
  ⟨⟨by decide, (getMove_total_or_raises deadlockBoard 5).1 (by decide)⟩,
   ⟨by decide, (getMove_total_or_raises specBoard 5).2 (by decide)⟩⟩

/-- C7 — on a board whose maximum tile equals the target value, both search
procedures return immediately with the static evaluation at every fuel, bounds
and depth (no recursion is ever entered), and `getMove` returns exactly the
uniformly-sampled legal move `moves[r % len(moves)]`. -/
theorem terminal_bypasses_search (g : Grid) (r : Nat) (F : Nat) (d : Nat)
    (a b : Int) (hterm : g.getMaxTile = TARGET_TILE_VALUE) :
    maximize F g d a b = (none, eval g) ∧
    minimize F g d a b = (none, eval g) ∧
    ∀ h : g.getAvailableMoves ≠ [],
      getMove g r = .ok (g.getAvailableMoves.get
        ⟨r % g.getAvailableMoves.length, Nat.mod_lt _ (List.length_pos.2 h)⟩) := by
  have hcond : ∀ d' : Nat, ((d' = MAX_DEPTH) || is_terminal_state g) = true := by
    intro d'
    simp [is_terminal_state, hterm, TARGET_TILE_VALUE]
  refine ⟨maximize_cutoff F g d a b (hcond d), minimize_cutoff F g d a b (hcond d), ?_⟩
  intro h
  have hfirst : (maximize MAX_DEPTH g 0 (-MAX_UTILITY) MAX_UTILITY).1 = none := by
    rw [maximize_cutoff MAX_DEPTH g 0 _ _ (hcond 0)]
  have hlen : g.getAvailableMoves.length ≠ 0 :=
    Nat.pos_iff_ne_zero.1 (List.length_pos.2 h)
  simp [getMove, hfirst, hlen]

/-- C7 witness — the bypass statement on a board holding a 2048 tile. -/
theorem terminal_bypasses_search_witness :
    (reachedBoard.getMaxTile = TARGET_TILE_VALUE ∧
      reachedBoard.getAvailableMoves ≠ []) ∧
    (maximize 9 reachedBoard 0 (-MAX_UTILITY) MAX_UTILITY = (none, eval reachedBoard) ∧
     minimize 9 reachedBoard 0 (-MAX_UTILITY) MAX_UTILITY = (none, eval reachedBoard) ∧
     ∀ h : reachedBoard.getAvailableMoves ≠ [],
       getMove reachedBoard 6 = .ok (reachedBoard.getAvailableMoves.get
         ⟨6 % reachedBoard.getAvailableMoves.length, Nat.mod_lt _ (List.length_pos.2 h)⟩)) :=
  ⟨⟨by decide, by decide⟩,
   terminal_bypasses_search reachedBoard 6 9 0 (-MAX_UTILITY) MAX_UTILITY (by decide)⟩

/-! ## Alpha-beta soundness (C2): fold helpers -/

/-- A running maximum never drops below its seed. -/
theorem le_foldl_vmax {α : Type} (v : α → Int) :
    ∀ (l : List α) (s : Int), s ≤ l.foldl (fun acc x => max acc (v x)) s := by
  intro l
  induction l with
  | nil => intro s; exact le_refl s
  | cons x l ih =>
    intro s
    exact le_trans (le_max_left s (v x)) (ih (max s (v x)))

/-- A running maximum stays below any bound dominating the seed and every
element. -/
theorem foldl_vmax_le {α : Type} (v : α → Int) :
    ∀ (l : List α) (s c : Int), s ≤ c → (∀ x ∈ l, v x ≤ c) →
      l.foldl (fun acc x => max acc (v x)) s ≤ c := by
  intro l
  induction l with
  | nil => intro s c hs _; exact hs
  | cons x l ih =>
    intro s c hs hall
    exact ih (max s (v x)) c
      (max_le hs (hall x (List.mem_cons_self x l)))
      (fun y hy => hall y (List.mem_cons_of_mem x hy))

/-- Strengthening the seed of a running maximum just clips it from below. -/
theorem foldl_vmax_seed {α : Type} (v : α → Int) :
    ∀ (l : List α) (s t : Int), t ≤ s →
      l.foldl (fun acc x => max acc (v x)) s =
        max s (l.foldl (fun acc x => max acc (v x)) t) := by
  intro l
  induction l with
  | nil => intro s t hts; exact (max_eq_left hts).symm
  | cons x l ih =>
    intro s t hts
    simp only [List.foldl_cons]
    rw [ih (max s (v x)) (max t (v x)) (max_le_max hts (le_refl _))]
    have hK : v x ≤ l.foldl (fun acc x => max acc (v x)) (max t (v x)) :=
      le_trans (le_max_right t (v x)) (le_foldl_vmax v l _)
    rw [max_assoc, max_eq_right hK]

/-- A running minimum never rises above its seed. -/
theorem foldl_vmin_le {α : Type} (v : α → Int) :
    ∀ (l : List α) (s : Int), l.foldl (fun acc x => min acc (v x)) s ≤ s := by
  intro l
  induction l with
  | nil => intro s; exact le_refl s
  | cons x l ih =>
    intro s
    exact le_trans (ih (min s (v x))) (min_le_left s (v x))

/-- A running minimum stays above any bound below the seed and every element. -/
theorem le_foldl_vmin {α : Type} (v : α → Int) :
    ∀ (l : List α) (s c : Int), c ≤ s → (∀ x ∈ l, c ≤ v x) →
      c ≤ l.foldl (fun acc x => min acc (v x)) s := by
  intro l
  induction l with
  | nil => intro s c hs _; exact hs
  | cons x l ih =>
    intro s c hs hall
    exact ih (min s (v x)) c
      (le_min hs (hall x (List.mem_cons_self x l)))
      (fun y hy => hall y (List.mem_cons_of_mem x hy))

/-- Weakening the seed of a running minimum just clips it from above. -/
theorem foldl_vmin_seed {α : Type} (v : α → Int) :
    ∀ (l : List α) (s t : Int), s ≤ t →
      l.foldl (fun acc x => min acc (v x)) s =
        min s (l.foldl (fun acc x => min acc (v x)) t) := by
  intro l
  induction l with
  | nil => intro s t hts; exact (min_eq_left hts).symm
  | cons x l ih =>
    intro s t hts
    simp only [List.foldl_cons]
    rw [ih (min s (v x)) (min t (v x)) (min_le_min hts (le_refl _))]
    have hK : l.foldl (fun acc x => min acc (v x)) (min t (v x)) ≤ v x :=
      le_trans (foldl_vmin_le v l _) (min_le_right t (v x))
    rw [min_assoc, min_eq_right hK]

/-- The fail-soft relation holds reflexively when pruning changed nothing. -/
theorem FailSoftCases.rfl_case (v a b : Int) : FailSoftCases v v a b :=
  ⟨fun h => ⟨le_refl v, h⟩, fun _ _ => rfl, fun h => ⟨h, le_refl v⟩⟩

/-! ## Alpha-beta soundness (C2): unfolding the two searches -/

/-- Unfolding the unpruned maximizing ply at positive fuel, with the children
folded directly over the move list. -/
theorem minimaxMax_succ (f : Nat) (g : Grid) (d : Nat) :
    minimaxMax (f + 1) g d =
      if (d = MAX_DEPTH) || is_terminal_state g then eval g
      else g.getAvailableMoves.foldl
        (fun acc m => max acc (minimaxMin f (g.move m) (d + 1))) (-MAX_UTILITY) := by
  rw [minimaxMax, List.foldl_map]

/-- The expected utility of one insertion cell in the unpruned search is just
the maximizing child's value (`9 * x // 9 = x`). -/
theorem minimaxMin_cell_value (f : Nat) (g : Grid) (c : Pos) (d : Nat) :
    Int.fdiv
      (TILE_VALUE_PROBA.foldl
        (fun (acc : Int × Int) vp =>
          (acc.1 + vp.2 * minimaxMax f (g.setCellValue c vp.1) (d + 1),
           acc.2 + vp.2)) (0, 0)).1
      (TILE_VALUE_PROBA.foldl
        (fun (acc : Int × Int) vp =>
          (acc.1 + vp.2 * minimaxMax f (g.setCellValue c vp.1) (d + 1),
           acc.2 + vp.2)) (0, 0)).2
      = minimaxMax f (g.setCellValue c 2) (d + 1) := by
  show Int.fdiv (0 + 9 * minimaxMax f (g.setCellValue c 2) (d + 1)) (0 + 9) = _
  rw [zero_add, zero_add]
  exact Int.mul_fdiv_cancel_left _ (by norm_num)

/-- Unfolding the unpruned minimizing ply at positive fuel, with the
single-value expectation collapsed to the child value. -/
theorem minimaxMin_succ (f : Nat) (g : Grid) (d : Nat) :
    minimaxMin (f + 1) g d =
      if (d = MAX_DEPTH) || is_terminal_state g then eval g
      else g.getAvailableCells.foldl
        (fun acc c => min acc (minimaxMax f (g.setCellValue c 2) (d + 1)))
        MAX_UTILITY := by
  rw [minimaxMin]
  congr 1
  rw [List.foldl_map]
  apply List.foldl_ext
  intro acc c _
  rw [minimaxMin_cell_value]

/-- One step of the pruned cell loop, with the single-value expectation
collapsed to the maximizing child's value. -/
theorem minLoop_cons (f : Nat) (g : Grid) (dp : Nat) (al : Int) (c : Pos)
    (rest : List Pos) (mn : Option Pos) (mu be : Int) :
    minLoop (maximize f) g dp al (c :: rest) mn mu be =
      (let utility := (maximize f (g.setCellValue c 2) (dp + 1) al be).2
       let best := if utility < mu then (some c, utility) else (mn, mu)
       if utility ≤ al then best
       else minLoop (maximize f) g dp al rest best.1 best.2
         (if utility < be then utility else be)) := by
  have hp : probaLoop (maximize f) c dp al be TILE_VALUE_PROBA 0 0 g =
      (0 + 9 * (maximize f (g.setCellValue c 2) (dp + 1) al be).2, 0 + 9) := rfl
  simp only [minLoop, hp, zero_add]
  rw [Int.mul_fdiv_cancel_left _ (by norm_num : (9 : Int) ≠ 0)]

/-! ## Alpha-beta soundness (C2): the fail-soft loop invariants -/

/-- Fail-soft invariant of the pruned move loop: if each child's pruned value
relates to its true value by `FailSoftCases`, then the loop's result relates to
the running maximum of the true child values.  `mu` is the best utility seen
so far, `al` the raised alpha (`al = max a mu` along the real run). -/
theorem maxLoop_failsoft (mf : Grid → Nat → Int → Int → Option Pos × Int)
    (g : Grid) (d : Nat) (b : Int) (val : Move → Int)
    (hchild : ∀ (m : Move) (al' : Int), -MAX_UTILITY ≤ al' → al' < b →
      FailSoftCases (val m) ((mf (g.move m) (d + 1) al' b).2) al' b) :
    ∀ (l : List Move) (mm : Option Move) (mu al : Int),
      -MAX_UTILITY ≤ mu → mu ≤ al → al < b →
      FailSoftCases (l.foldl (fun acc m => max acc (val m)) mu)
        ((maxLoop mf g d b l mm mu al).2) al b := by
  intro l
  induction l with
  | nil =>
    intro mm mu al hmuM hmual halb
    exact FailSoftCases.rfl_case mu al b
  | cons m rest ih =>
    intro mm mu al hmuM hmual halb
    obtain ⟨hc1, hc2, hc3⟩ := hchild m al (by omega) halb
    simp only [maxLoop, List.foldl_cons]
    set v₁ := val m with hv₁
    set u₁ := (mf (g.move m) (d + 1) al b).2 with hu₁
    have hseed : v₁ ≤ rest.foldl (fun acc m => max acc (val m)) (max mu v₁) :=
      le_trans (le_max_right mu v₁) (le_foldl_vmax val rest (max mu v₁))
    have hmuw : mu ≤ rest.foldl (fun acc m => max acc (val m)) (max mu v₁) :=
      le_trans (le_max_left mu v₁) (le_foldl_vmax val rest (max mu v₁))
    by_cases hbr : u₁ ≥ b
    · rw [if_pos hbr]
      have hkey : b ≤ v₁ ∧ b ≤ u₁ ∧ u₁ ≤ v₁ := by
        rcases le_or_lt v₁ al with hv | hv
        · obtain ⟨h1, h2⟩ := hc1 hv
          omega
        · rcases lt_or_le v₁ b with hvb | hvb
          · have := hc2 hv hvb
            omega
          · obtain ⟨h1, h2⟩ := hc3 hvb
            exact ⟨hvb, h1, h2⟩
      have hr2 : (if u₁ > mu then ((some m : Option Move), u₁) else (mm, mu)).2 =
          max mu u₁ := by
        rw [apply_ite Prod.snd]
        split <;> omega
      rw [hr2]
      refine ⟨fun h => absurd h (by omega), fun h1 h2 => absurd h2 (by omega),
        fun h => ⟨by omega, ?_⟩⟩
      have huw : u₁ ≤ rest.foldl (fun acc m => max acc (val m)) (max mu v₁) := by omega
      omega
    · rw [if_neg hbr]
      have hub : u₁ < b := by omega
      have hr2 : (if u₁ > mu then ((some m : Option Move), u₁) else (mm, mu)).2 =
          max mu u₁ := by
        rw [apply_ite Prod.snd]
        split <;> omega
      have hal' : (if u₁ > al then u₁ else al) = max al u₁ := by
        split <;> omega
      rw [hr2, hal']
      obtain ⟨ih1, ih2, ih3⟩ := ih (if u₁ > mu then (some m, u₁) else (mm, mu)).1
        (max mu u₁) (max al u₁) (by omega) (by omega) (by omega)
      have hKw : rest.foldl (fun acc m => max acc (val m)) (max mu v₁) =
          max (max mu v₁) (rest.foldl (fun acc m => max acc (val m)) (-MAX_UTILITY)) :=
        foldl_vmax_seed val rest (max mu v₁) (-MAX_UTILITY) (by omega)
      have hKwt : rest.foldl (fun acc m => max acc (val m)) (max mu u₁) =
          max (max mu u₁) (rest.foldl (fun acc m => max acc (val m)) (-MAX_UTILITY)) :=
        foldl_vmax_seed val rest (max mu u₁) (-MAX_UTILITY) (by omega)
      rcases le_or_lt v₁ al with hv | hv
      · obtain ⟨hcl, hcu⟩ := hc1 hv
        refine ⟨fun h => ?_, fun h1 h2 => ?_, fun h => ?_⟩
        · rw [hKw] at h
          obtain ⟨g1, g2⟩ := ih1 (by rw [hKwt]; omega)
          rw [hKwt] at g1
          rw [hKw]
          omega
        · rw [hKw] at h1 h2
          have := ih2 (by rw [hKwt]; omega) (by rw [hKwt]; omega)
          rw [hKwt] at this
          rw [hKw]
          omega
        · rw [hKw] at h
          obtain ⟨g1, g2⟩ := ih3 (by rw [hKwt]; omega)
          rw [hKwt] at g2
          rw [hKw]
          omega
      · rcases lt_or_le v₁ b with hvb | hvb
        · have hc : u₁ = v₁ := hc2 hv hvb
          have hwt : rest.foldl (fun acc m => max acc (val m)) (max mu u₁) =
              rest.foldl (fun acc m => max acc (val m)) (max mu v₁) := by rw [hc]
          refine ⟨fun h => ?_, fun h1 h2 => ?_, fun h => ?_⟩
          · omega
          · rcases le_or_lt (rest.foldl (fun acc m => max acc (val m)) (max mu v₁))
                (max al u₁) with hcase | hcase
            · obtain ⟨g1, g2⟩ := ih1 (by rw [hwt]; exact hcase)
              rw [hwt] at g1
              omega
            · have := ih2 (by rw [hwt]; exact hcase) (by rw [hwt]; exact h2)
              rw [hwt] at this
              omega
          · obtain ⟨g1, g2⟩ := ih3 (by rw [hwt]; exact h)
            rw [hwt] at g2
            exact ⟨g1, g2⟩
        · obtain ⟨hcb, _⟩ := hc3 hvb
          omega

/-- Fail-soft invariant of the pruned cell loop, mirroring
`maxLoop_failsoft`: `mu` is the least expected utility seen so far, `be` the
lowered beta (`be = min b mu` along the real run). -/
theorem minLoop_failsoft (f : Nat) (g : Grid) (d : Nat) (al : Int) (val : Pos → Int)
    (hchild : ∀ (c : Pos) (be' : Int), be' ≤ MAX_UTILITY → al < be' →
      FailSoftCases (val c) ((maximize f (g.setCellValue c 2) (d + 1) al be').2) al be') :
    ∀ (l : List Pos) (mn : Option Pos) (mu be : Int),
      mu ≤ MAX_UTILITY → be ≤ mu → al < be →
      FailSoftCases (l.foldl (fun acc c => min acc (val c)) mu)
        ((minLoop (maximize f) g d al l mn mu be).2) al be := by
  intro l
  induction l with
  | nil =>
    intro mn mu be hmuM hbemu halbe
    exact FailSoftCases.rfl_case mu al be
  | cons c rest ih =>
    intro mn mu be hmuM hbemu halbe
    obtain ⟨hc1, hc2, hc3⟩ := hchild c be (by omega) halbe
    rw [minLoop_cons]
    simp only [List.foldl_cons]
    set v₁ := val c with hv₁
    set u₁ := (maximize f (g.setCellValue c 2) (d + 1) al be).2 with hu₁
    have hseed : rest.foldl (fun acc c => min acc (val c)) (min mu v₁) ≤ v₁ :=
      le_trans (foldl_vmin_le val rest (min mu v₁)) (min_le_right mu v₁)
    have hmuw : rest.foldl (fun acc c => min acc (val c)) (min mu v₁) ≤ mu :=
      le_trans (foldl_vmin_le val rest (min mu v₁)) (min_le_left mu v₁)
    by_cases hbr : u₁ ≤ al
    · rw [if_pos hbr]
      have hkey : v₁ ≤ al ∧ u₁ ≤ al ∧ v₁ ≤ u₁ := by
        rcases le_or_lt be v₁ with hv | hv
        · obtain ⟨h1, h2⟩ := hc3 hv
          omega
        · rcases lt_or_le al v₁ with hva | hva
          · have := hc2 hva hv
            omega
          · obtain ⟨h1, h2⟩ := hc1 hva
            exact ⟨hva, by omega, h1⟩
      have hr2 : (if u₁ < mu then ((some c : Option Pos), u₁) else (mn, mu)).2 =
          min mu u₁ := by
        rw [apply_ite Prod.snd]
        split <;> omega
      rw [hr2]
      refine ⟨fun h => ⟨?_, by omega⟩, fun h1 h2 => absurd h1 (by omega),
        fun h => absurd h (by omega)⟩
      omega
    · rw [if_neg hbr]
      have hub : al < u₁ := by omega
      have hr2 : (if u₁ < mu then ((some c : Option Pos), u₁) else (mn, mu)).2 =
          min mu u₁ := by
        rw [apply_ite Prod.snd]
        split <;> omega
      have hbe' : (if u₁ < be then u₁ else be) = min be u₁ := by
        split <;> omega
      rw [hr2, hbe']
      obtain ⟨ih1, ih2, ih3⟩ := ih (if u₁ < mu then (some c, u₁) else (mn, mu)).1
        (min mu u₁) (min be u₁) (by omega) (by omega) (by omega)
      have hKw : rest.foldl (fun acc c => min acc (val c)) (min mu v₁) =
          min (min mu v₁) (rest.foldl (fun acc c => min acc (val c)) MAX_UTILITY) :=
        foldl_vmin_seed val rest (min mu v₁) MAX_UTILITY (by omega)
      have hKwt : rest.foldl (fun acc c => min acc (val c)) (min mu u₁) =
          min (min mu u₁) (rest.foldl (fun acc c => min acc (val c)) MAX_UTILITY) :=
        foldl_vmin_seed val rest (min mu u₁) MAX_UTILITY (by omega)
      rcases le_or_lt be v₁ with hv | hv
      · obtain ⟨hcl, hcu⟩ := hc3 hv
        refine ⟨fun h => ?_, fun h1 h2 => ?_, fun h => ?_⟩
        · rw [hKw] at h
          obtain ⟨g1, g2⟩ := ih1 (by rw [hKwt]; omega)
          rw [hKwt] at g1
          rw [hKw]
          omega
        · rw [hKw] at h1 h2
          have := ih2 (by rw [hKwt]; omega) (by rw [hKwt]; omega)
          rw [hKwt] at this
          rw [hKw]
          omega
        · rw [hKw] at h
          obtain ⟨g1, g2⟩ := ih3 (by rw [hKwt]; omega)
          rw [hKwt] at g2
          rw [hKw]
          omega
      · rcases lt_or_le al v₁ with hva | hva
        · have hc : u₁ = v₁ := hc2 hva hv
          have hwt : rest.foldl (fun acc c => min acc (val c)) (min mu u₁) =
              rest.foldl (fun acc c => min acc (val c)) (min mu v₁) := by rw [hc]
          refine ⟨fun h => ?_, fun h1 h2 => ?_, fun h => ?_⟩
          · obtain ⟨g1, g2⟩ := ih1 (by rw [hwt]; omega)
            rw [hwt] at g1
            omega
          · rcases le_or_lt (min be u₁) (rest.foldl (fun acc c => min acc (val c))
                (min mu v₁)) with hcase | hcase
            · obtain ⟨g1, g2⟩ := ih3 (by rw [hwt]; exact hcase)
              rw [hwt] at g2
              omega
            · have := ih2 (by rw [hwt]; exact h1) (by rw [hwt]; exact hcase)
              rw [hwt] at this
              omega
          · omega
        · obtain ⟨hcb, _⟩ := hc1 hva
          omega

/-- The Knuth–Moore fail-soft theorem for the two plies: at every fuel, depth
and bound window `-MAX_UTILITY ≤ a < b ≤ MAX_UTILITY`, the pruned utility
relates to the unpruned minimax utility by `FailSoftCases`. -/
theorem search_failsoft : ∀ (fuel : Nat) (g : Grid) (d : Nat) (a b : Int),
    -MAX_UTILITY ≤ a → a < b → b ≤ MAX_UTILITY →
    FailSoftCases (minimaxMax fuel g d) ((maximize fuel g d a b).2) a b ∧
    FailSoftCases (minimaxMin fuel g d) ((minimize fuel g d a b).2) a b := by
  intro fuel
  induction fuel with
  | zero =>
    intro g d a b _ _ _
    constructor
    · have h1 : minimaxMax 0 g d = eval g := by simp [minimaxMax]
      rw [h1]
      exact FailSoftCases.rfl_case (eval g) a b
    · have h2 : minimaxMin 0 g d = eval g := by simp [minimaxMin]
      rw [h2]
      exact FailSoftCases.rfl_case (eval g) a b
  | succ f ihf =>
    intro g d a b haM hab hbM
    by_cases hcond : ((d = MAX_DEPTH) || is_terminal_state g) = true
    · constructor
      · rw [minimaxMax_succ, if_pos hcond, maximize_cutoff (f + 1) g d a b hcond]
        exact FailSoftCases.rfl_case (eval g) a b
      · rw [minimaxMin_succ, if_pos hcond, minimize_cutoff (f + 1) g d a b hcond]
        exact FailSoftCases.rfl_case (eval g) a b
    · constructor
      · rw [maximize_succ, if_neg hcond, minimaxMax_succ, if_neg hcond]
        exact maxLoop_failsoft (minimize f) g d b
          (fun m => minimaxMin f (g.move m) (d + 1))
          (fun m al' h1 h2 => (ihf (g.move m) (d + 1) al' b h1 h2 hbM).2)
          g.getAvailableMoves none (-MAX_UTILITY) a (le_refl _) haM hab
      · rw [minimize_succ, if_neg hcond, minimaxMin_succ, if_neg hcond]
        exact minLoop_failsoft f g d a
          (fun c => minimaxMax f (g.setCellValue c 2) (d + 1))
          (fun c be' h1 h2 => (ihf (g.setCellValue c 2) (d + 1) a be' haM h2 h1).1)
          g.getAvailableCells none MAX_UTILITY b (le_refl _) hbM hab

/-! ## Alpha-beta soundness (C2): evaluation bounds at terminal leaves -/

/-- Members of a list are below its `foldr max 0`. -/
theorem le_foldr_max_nat (l : List Nat) (x : Nat) (hx : x ∈ l) :
    x ≤ l.foldr max 0 := by
  induction l with
  | nil => cases hx
  | cons y l ih =>
    rcases List.mem_cons.1 hx with rfl | hx'
    · exact le_max_left x _
    · exact le_trans (ih hx') (le_max_right y _)

/-- Every raw cell read is bounded by `getMaxTile`. -/
theorem cell_le_getMaxTile (g : Grid) (i j : Nat) : g.cell i j ≤ g.getMaxTile := by
  unfold Grid.cell Grid.getMaxTile
  rcases Nat.lt_or_ge i g.map.length with hi | hi
  · have hrow : g.map.getD i [] ∈ g.map := by
      rw [List.getD_eq_getElem g.map [] hi]
      exact List.getElem_mem hi
    rcases Nat.lt_or_ge j (g.map.getD i []).length with hj | hj
    · have hcell : (g.map.getD i []).getD j 0 ∈ g.map.getD i [] := by
        rw [List.getD_eq_getElem (g.map.getD i []) 0 hj]
        exact List.getElem_mem hj
      refine le_trans (le_foldr_max_nat _ _ hcell) ?_
      exact le_foldr_max_nat _ _ (List.mem_map_of_mem _ hrow)
    · rw [List.getD_eq_default _ _ hj]
      exact Nat.zero_le _
  · rw [List.getD_eq_default _ _ hi]
    exact Nat.zero_le _

/-- A running `Nat` maximum stays below a bound dominating seed and elements. -/
theorem foldl_vmax_le_nat {α : Type} (v : α → Nat) :
    ∀ (l : List α) (s c : Nat), s ≤ c → (∀ x ∈ l, v x ≤ c) →
      l.foldl (fun acc x => max acc (v x)) s ≤ c := by
  intro l
  induction l with
  | nil => intro s c hs _; exact hs
  | cons x l ih =>
    intro s c hs hall
    exact ih (max s (v x)) c
      (max_le hs (hall x (List.mem_cons_self x l)))
      (fun y hy => hall y (List.mem_cons_of_mem x hy))

/-- The board has `size²` positions. -/
theorem positions_length (g : Grid) :
    (Grid.positions g).length = g.size * g.size := by
  unfold Grid.positions
  rw [List.length_flatten, List.map_map]
  have h : (List.map (List.length ∘ fun i => List.map (fun j => (i, j)) (List.range g.size))
      (List.range g.size)) = List.map (fun _ => g.size) (List.range g.size) := by
    apply List.map_congr_left
    intro i _
    simp [Function.comp]
  rw [h, List.map_const', List.sum_replicate, List.length_range, smul_eq_mul]

/-- On a terminal board (maximum tile exactly the target) the evaluation is at
most `80·size² + 10·2048`: the two structural terms only penalize, the empty
count is at most `size²`, and the tracked maximum is the target itself. -/
theorem eval_terminal_le (g : Grid) (hterm : is_terminal_state g = true) :
    eval g ≤ 80 * ((g.size : Int) * g.size) + 10 * (TARGET_TILE_VALUE : Int) := by
  have hsm := smoothness_nonpos g
  have hmn := monotonicity_nonpos g
  have hmax : g.getMaxTile = TARGET_TILE_VALUE := by
    simpa [is_terminal_state] using hterm
  have hstats := evalStats_eq g
  have hempty : emptyCount g ≤ g.size * g.size := by
    rw [← positions_length g]
    exact List.countP_le_length _
  have hmx : maxTile g ≤ TARGET_TILE_VALUE := by
    rw [← hmax]
    exact foldl_vmax_le_nat _ (Grid.positions g) 0 g.getMaxTile (Nat.zero_le _)
      (fun p _ => cell_le_getMaxTile g p.1 p.2)
  simp only [eval, hstats]
  have h1 : ((emptyCount g : Int)) ≤ (g.size : Int) * g.size := by
    have h := hempty
    zify at h
    exact h
  have h2 : ((maxTile g : Int)) ≤ (TARGET_TILE_VALUE : Int) := by
    exact_mod_cast hmx
  omega

/-- Below the depth cutoff the unpruned minimizing ply never exceeds the
`MAX_UTILITY` sentinel, provided terminal evaluations fit under it. -/
theorem minimaxMin_le_sentinel (f : Nat) (g : Grid) (d : Nat) (hd : d ≠ MAX_DEPTH)
    (hsize : 80 * ((g.size : Int) * g.size) + 10 * (TARGET_TILE_VALUE : Int) ≤ MAX_UTILITY) :
    minimaxMin (f + 1) g d ≤ MAX_UTILITY := by
  rw [minimaxMin_succ]
  by_cases hcond : ((d = MAX_DEPTH) || is_terminal_state g) = true
  · rw [if_pos hcond]
    have hterm : is_terminal_state g = true := by
      rcases Bool.or_eq_true_iff.1 hcond with h | h
      · exact absurd (of_decide_eq_true h) hd
      · exact h
    exact le_trans (eval_terminal_le g hterm) hsize
  · rw [if_neg hcond]
    exact foldl_vmin_le _ _ _

/-- C2 — on every board (of any size whose terminal evaluations fit under the
`sys.maxsize` sentinel, as every real board's do), the utility computed by the
pruned root search `maximize(board, 0, -INF, +INF)` equals the unpruned
depth-bounded minimax utility with the same cutoff, expectation model and leaf
evaluator. -/
theorem pruned_search_equals_minimax (g : Grid)
    (hsize : 80 * ((g.size : Int) * g.size) + 10 * (TARGET_TILE_VALUE : Int) ≤ MAX_UTILITY) :
    (maximize MAX_DEPTH g 0 (-MAX_UTILITY) MAX_UTILITY).2 = minimaxMax MAX_DEPTH g 0 := by
  have h4 : MAX_DEPTH = 3 + 1 := rfl
  by_cases hcond : (((0 : Nat) = MAX_DEPTH) || is_terminal_state g) = true
  · rw [maximize_cutoff MAX_DEPTH g 0 _ _ hcond, h4, minimaxMax_succ, if_pos hcond]
  · obtain ⟨⟨c1, c2, c3⟩, _⟩ := search_failsoft MAX_DEPTH g 0 (-MAX_UTILITY) MAX_UTILITY
      (le_refl _) (by norm_num [MAX_UTILITY]) (le_refl _)
    have hv_lo : -MAX_UTILITY ≤ minimaxMax MAX_DEPTH g 0 := by
      rw [h4, minimaxMax_succ, if_neg hcond]
      exact le_foldl_vmax _ _ _
    have hv_hi : minimaxMax MAX_DEPTH g 0 ≤ MAX_UTILITY := by
      rw [h4, minimaxMax_succ, if_neg hcond]
      apply foldl_vmax_le
      · norm_num [MAX_UTILITY]
      · intro m _
        have hsz : (g.move m).size = g.size := by cases m <;> rfl
        exact minimaxMin_le_sentinel 2 (g.move m) (0 + 1) (by decide)
          (by rw [hsz]; exact hsize)
    by_cases h1 : minimaxMax MAX_DEPTH g 0 ≤ -MAX_UTILITY
    · have := c1 h1
      omega
    · by_cases h2 : MAX_UTILITY ≤ minimaxMax MAX_DEPTH g 0
      · have := c3 h2
        omega
      · exact c2 (by omega) (by omega)

/-- C2 witness — pruned and unpruned utilities agree on the fixed test
board. -/
theorem pruned_search_equals_minimax_witness :
    (80 * ((specBoard.size : Int) * specBoard.size) + 10 * (TARGET_TILE_VALUE : Int) ≤
      MAX_UTILITY) ∧
    (maximize MAX_DEPTH specBoard 0 (-MAX_UTILITY) MAX_UTILITY).2 =
      minimaxMax MAX_DEPTH specBoard 0 :=
  ⟨by decide, pruned_search_equals_minimax specBoard (by decide)⟩

/-! ## The frame property of the search (C8) -/

/-- Overwriting the freshly appended clone touches nothing of the original
store. -/
theorem set_append_singleton (s : Store) (x y : Grid) :
    (s ++ [x]).set s.length y = s ++ [y] := by
  induction s with
  | nil => rfl
  | cons a s ih => simp [List.set_cons_succ, ih]

/-- A store whose first `|s|` entries agree with `s` is an extension of `s`. -/
theorem store_extend_of_agree (s s2 : Store) (_hlen : s.length ≤ s2.length)
    (h : ∀ j, j < s.length → s2[j]? = s[j]?) : ∃ ext, s2 = s ++ ext := by
  refine ⟨s2.drop s.length, ?_⟩
  apply List.ext_getElem?
  intro n
  rcases Nat.lt_or_ge n s.length with hn | hn
  · rw [List.getElem?_append_left hn, h n hn]
  · rw [List.getElem?_append_right hn, List.getElem?_drop]
    congr 1
    omega

/-- The expectation loop only writes to the clone `copyRef`: every other
pre-existing entry survives, and the store never shrinks. -/
theorem probaLoopST_frame
    (mf : Store → Nat → Nat → Int → Int → (Option Move × Int) × Store)
    (hmf : ∀ s ref d a b, ∃ ext, (mf s ref d a b).2 = s ++ ext)
    (copyRef : Nat) (cellPos : Pos) (depth : Nat) (alpha beta : Int) :
    ∀ (l : List (Nat × Int)) (s : Store) (u fr : Int),
      s.length ≤ ((probaLoopST mf copyRef cellPos depth alpha beta l s u fr).2).length ∧
      ∀ j, j < s.length → j ≠ copyRef →
        ((probaLoopST mf copyRef cellPos depth alpha beta l s u fr).2)[j]? = s[j]? := by
  intro l
  induction l with
  | nil => intro s u fr; exact ⟨le_refl _, fun j _ _ => rfl⟩
  | cons vp rest ih =>
    intro s u fr
    cases vp with
    | mk value proba =>
      simp only [probaLoopST]
      obtain ⟨ext, hext⟩ := hmf (s.setCellAt copyRef cellPos value) copyRef
        (depth + 1) alpha beta
      have hlen1 : (s.setCellAt copyRef cellPos value).length = s.length := by
        simp [Store.setCellAt]
      obtain ⟨ihl, ihp⟩ := ih ((mf (s.setCellAt copyRef cellPos value) copyRef
        (depth + 1) alpha beta).2) (u + proba * (mf (s.setCellAt copyRef cellPos value)
          copyRef (depth + 1) alpha beta).1.2) (fr + proba)
      constructor
      · refine le_trans ?_ ihl
        rw [hext]
        simp [hlen1]
      · intro j hj hne
        rw [ihp j (by rw [hext]; simp; omega) hne, hext,
          List.getElem?_append_left (by rw [hlen1]; exact hj)]
        simp [Store.setCellAt, List.getElem?_set_ne (Ne.symm hne)]

/-- The move loop of the store-level `__maximize` only appends clones and
mutates them: the incoming store is a prefix of the outgoing one. -/
theorem maxLoopST_extends
    (mf : Store → Nat → Nat → Int → Int → (Option Pos × Int) × Store)
    (hmf : ∀ s ref d a b, ∃ ext, (mf s ref d a b).2 = s ++ ext)
    (ref : Nat) (depth : Nat) (beta : Int) :
    ∀ (l : List Move) (s : Store) (mm : Option Move) (mu al : Int),
      ∃ ext, (maxLoopST mf ref depth beta l s mm mu al).2 = s ++ ext := by
  intro l
  induction l with
  | nil => intro s mm mu al; exact ⟨[], (List.append_nil s).symm⟩
  | cons m rest ih =>
    intro s mm mu al
    simp only [maxLoopST, Store.clone, Store.moveAt]
    rw [set_append_singleton]
    obtain ⟨ext1, hext1⟩ := hmf (s ++ [((s ++ [s.deref ref]).deref s.length).move m])
      s.length (depth + 1) al beta
    split
    · rw [hext1, List.append_assoc]
      exact ⟨_, rfl⟩
    · obtain ⟨ext2, hext2⟩ := ih _ _ _ _
      rw [hext2, hext1, List.append_assoc, List.append_assoc]
      exact ⟨_, rfl⟩

/-- The cell loop of the store-level `__minimize` only appends clones and
mutates them: the incoming store is a prefix of the outgoing one. -/
theorem minLoopST_extends
    (mf : Store → Nat → Nat → Int → Int → (Option Move × Int) × Store)
    (hmf : ∀ s ref d a b, ∃ ext, (mf s ref d a b).2 = s ++ ext)
    (ref : Nat) (depth : Nat) (alpha : Int) :
    ∀ (l : List Pos) (s : Store) (mn : Option Pos) (mu be : Int),
      ∃ ext, (minLoopST mf ref depth alpha l s mn mu be).2 = s ++ ext := by
  intro l
  induction l with
  | nil => intro s mn mu be; exact ⟨[], (List.append_nil s).symm⟩
  | cons c rest ih =>
    intro s mn mu be
    simp only [minLoopST, Store.clone]
    obtain ⟨hplen, hpagree⟩ := probaLoopST_frame mf hmf s.length c depth alpha be
      TILE_VALUE_PROBA (s ++ [s.deref ref]) 0 0
    have hext : ∃ ext, (probaLoopST mf s.length c depth alpha be TILE_VALUE_PROBA
        (s ++ [s.deref ref]) 0 0).2 = s ++ ext := by
      apply store_extend_of_agree
      · refine le_trans ?_ hplen
        simp
      · intro j hj
        rw [hpagree j (by simp; omega) (by omega),
          List.getElem?_append_left hj]
    obtain ⟨ext1, hext1⟩ := hext
    split
    · exact ⟨ext1, hext1⟩
    · obtain ⟨ext2, hext2⟩ := ih _ _ _ _
      rw [hext2, hext1, List.append_assoc]
      exact ⟨_, rfl⟩

/-- Both store-level search plies leave every pre-existing board in place: the
incoming store is a prefix of the outgoing one at every fuel. -/
theorem searchFnsST_extends : ∀ (fuel : Nat) (s : Store) (ref : Nat) (d : Nat)
    (a b : Int),
    (∃ ext, ((searchFnsST fuel).1 s ref d a b).2 = s ++ ext) ∧
    (∃ ext, ((searchFnsST fuel).2 s ref d a b).2 = s ++ ext) := by
  intro fuel
  induction fuel with
  | zero =>
    intro s ref d a b
    exact ⟨⟨[], (List.append_nil s).symm⟩, ⟨[], (List.append_nil s).symm⟩⟩
  | succ f ih =>
    intro s ref d a b
    constructor
    · simp only [searchFnsST]
      split
      · exact ⟨[], (List.append_nil s).symm⟩
      · exact maxLoopST_extends _ (fun s' ref' d' a' b' => (ih s' ref' d' a' b').2)
          ref d b _ s none (-MAX_UTILITY) a
    · simp only [searchFnsST]
      split
      · exact ⟨[], (List.append_nil s).symm⟩
      · exact minLoopST_extends _ (fun s' ref' d' a' b' => (ih s' ref' d' a' b').1)
          ref d a _ s none MAX_UTILITY b

/-- C8 — a call of `getMove` (and of `__maximize`/`__minimize` at any fuel,
depth and bounds) leaves every board that existed before the call unchanged in
the store: every `move()`/`setCellValue()` mutation targets a clone allocated
inside the call.  In particular the caller's own board is untouched. -/
theorem caller_store_never_mutated (s : Store) (ref r : Nat) (fuel : Nat)
    (d : Nat) (a b : Int) (j : Nat) (hj : j < s.length) :
    ((getMoveST s ref r).2)[j]? = s[j]? ∧
    ((maximizeST fuel s ref d a b).2)[j]? = s[j]? ∧
    ((minimizeST fuel s ref d a b).2)[j]? = s[j]? := by
  have hmax : ∀ (fuel : Nat) (d : Nat) (a b : Int),
      ((maximizeST fuel s ref d a b).2)[j]? = s[j]? := by
    intro fuel d a b
    obtain ⟨ext, hext⟩ := (searchFnsST_extends fuel s ref d a b).1
    show ((searchFnsST fuel).1 s ref d a b).2[j]? = s[j]?
    rw [hext, List.getElem?_append_left hj]
  refine ⟨?_, hmax fuel d a b, ?_⟩
  · have h := hmax MAX_DEPTH 0 (-MAX_UTILITY) MAX_UTILITY
    show ((getMoveST s ref r).2)[j]? = s[j]?
    simp only [getMoveST]
    split
    · exact h
    · split <;> exact h
  · obtain ⟨ext, hext⟩ := (searchFnsST_extends fuel s ref d a b).2
    show ((searchFnsST fuel).2 s ref d a b).2[j]? = s[j]?
    rw [hext, List.getElem?_append_left hj]

/-- C8 witness — the frame property on a two-board store holding the fixed
test board. -/
theorem caller_store_never_mutated_witness :
    (0 < [specBoard, deadlockBoard].length) ∧
    (((getMoveST [specBoard, deadlockBoard] 0 3).2)[0]? =
        [specBoard, deadlockBoard][0]? ∧
      ((maximizeST 2 [specBoard, deadlockBoard] 0 1 (-MAX_UTILITY) MAX_UTILITY).2)[0]? =
        [specBoard, deadlockBoard][0]? ∧
      ((minimizeST 2 [specBoard, deadlockBoard] 0 1 (-MAX_UTILITY) MAX_UTILITY).2)[0]? =
        [specBoard, deadlockBoard][0]?) :=
  ⟨by decide,
   caller_store_never_mutated [specBoard, deadlockBoard] 0 3 2 1
     (-MAX_UTILITY) MAX_UTILITY 0 (by decide)⟩

end Player2048
